import Mathlib

/-!
Verification of the aggregation (reduce) engine `src/engine/reduce.rs`.

The reducers (IntSum, FloatSum, ArraySum, Unique, Min, Max, ArgMin, ArgMax,
Any, SortedTuple, Tuple) are embedded as Lean functions over an explicit
model of the engine's `Key` and `Value` types.  `Key`/`Value` themselves are
external to the file under verification (they live in the surrounding
engine module), so they are modelled from the specification: `Key` is a
totally ordered hashable identifier, `Value` a totally ordered tagged
union.  Rust panics are modelled as `Except.error` (with the source's panic
message) or as `Option.none` where the panicking operation is an
`unwrap`/`expect` on an iterator; machine integers (`i64`/`isize`) are
modelled as `Int` with explicit two's-complement wrapping at 64 bits;
`f64` payloads are modelled as rationals (no claim settled here depends on
floating-point rounding); `NonZeroUsize` multiplicities are modelled as
`Nat` with positivity hypotheses where a claim needs them.
-/

/-! ## Ordering helpers -/

/-- Comparison of two elements of a linear order, as done by Rust's
derived `Ord` on primitive and standard types. -/
def lcmp {α : Type _} [LinearOrder α] (a b : α) : Ordering :=
  if a < b then .lt else if b < a then .gt else .eq

theorem lcmp_eq_lt {α : Type _} [LinearOrder α] {a b : α} :
    lcmp a b = .lt ↔ a < b := by
  unfold lcmp; split_ifs <;> simp_all

theorem lcmp_eq_gt {α : Type _} [LinearOrder α] {a b : α} :
    lcmp a b = .gt ↔ b < a := by
  unfold lcmp; split_ifs <;> simp_all
  exact le_of_lt (by assumption)

theorem lcmp_eq_eq {α : Type _} [LinearOrder α] {a b : α} :
    lcmp a b = .eq ↔ a = b := by
  unfold lcmp; split_ifs with h1 h2
  · simp_all; exact ne_of_lt h1
  · simp_all; exact ne_of_gt h2
  · simp_all; exact le_antisymm h2 h1

theorem lcmp_ne_gt {α : Type _} [LinearOrder α] {a b : α} :
    lcmp a b ≠ .gt ↔ a ≤ b := by
  rw [← not_lt, not_iff_not, lcmp_eq_gt]

theorem lcmp_swap {α : Type _} [LinearOrder α] (a b : α) :
    lcmp a b = (lcmp b a).swap := by
  rcases lt_trichotomy a b with h | h | h
  · rw [lcmp_eq_lt.2 h, lcmp_eq_gt.2 h]; rfl
  · subst h; rw [lcmp_eq_eq.2 rfl]; rfl
  · rw [lcmp_eq_gt.2 h, lcmp_eq_lt.2 h]; rfl

theorem lcmp_le_trans {α : Type _} [LinearOrder α] {a b c : α}
    (h1 : lcmp a b ≠ .gt) (h2 : lcmp b c ≠ .gt) : lcmp a c ≠ .gt :=
  lcmp_ne_gt.2 (le_trans (lcmp_ne_gt.1 h1) (lcmp_ne_gt.1 h2))

theorem Ordering.then_ne_gt {x y : Ordering} :
    x.then y ≠ .gt ↔ x = .lt ∨ (x = .eq ∧ y ≠ .gt) := by
  cases x <;> simp [Ordering.then]

theorem Ordering.then_swap (x y : Ordering) :
    (x.then y).swap = x.swap.then y.swap := by
  cases x <;> rfl

theorem Ordering.eq_of_eq_swap {x : Ordering} (h : x = x.swap) : x = .eq := by
  cases x <;> simp [Ordering.swap] at h ⊢

/-! ## Two's-complement 64-bit wrapping

`i64`/`isize` arithmetic (the Rust build whose semantics we model is a
release build, where overflow wraps). -/

/-- Reduce an integer into the representable range of `i64`,
two's-complement style. -/
def wrap64 (x : Int) : Int := (x + 2 ^ 63) % 2 ^ 64 - 2 ^ 63

/-- The `i64` range. -/
def InRange64 (x : Int) : Prop := -(2 ^ 63) ≤ x ∧ x < 2 ^ 63

instance (x : Int) : Decidable (InRange64 x) := by
  unfold InRange64; infer_instance

theorem wrap64_eq_self {x : Int} (h : InRange64 x) : wrap64 x = x := by
  obtain ⟨h1, h2⟩ := h; unfold wrap64; omega

theorem wrap64_add_left (a b : Int) : wrap64 (wrap64 a + b) = wrap64 (a + b) := by
  unfold wrap64; omega

theorem wrap64_add_right (a b : Int) : wrap64 (a + wrap64 b) = wrap64 (a + b) := by
  unfold wrap64; omega

/-! ## Key and salt

`Key` and its salted hash are not part of the file under verification. -/

/-- Modelled from the spec: `Key` is an "opaque totally-ordered, hashable
identifier", modelled as a natural number. -/
abbrev Key := Nat

/-- The compile-time salt constant of `reduce.rs` (default, 128-bit build). -/
def SALT : Nat := 0xDEADBEEFDEADBEEFDEADBEEFDEADBEEF

/-- Modelled from the spec: the "salted-hash projection" of a `Key`
("the salt is a fixed large constant folded into the key before hashing").
The fold-then-hash composite is modelled as an injective function of the
key, here addition of the salt. -/
def Key.salted_with (k : Key) (salt : Nat) : Nat := k + salt

theorem Key.salted_with_injective (salt : Nat) {k k' : Key}
    (h : Key.salted_with k salt = Key.salted_with k' salt) : k = k' := by
  simp only [Key.salted_with] at h; exact Nat.add_right_cancel h

/-! ## Values

The engine's `Value` type is external to `reduce.rs`; modelled from the
spec. -/

/-- Modelled from the spec: `Value` is "a tagged union (at least: absent,
integer, float, array-of-integer, array-of-float, reference-to-key,
sequence-of-Value) with a total order across and within variants" (a
string variant is added since the spec's examples aggregate string
values).  Numeric arrays are modelled one-dimensionally as lists; float
payloads are modelled as rationals. -/
inductive Value where
  | none
  | int (i : Int)
  | float (q : ℚ)
  | intArray (a : List Int)
  | floatArray (a : List ℚ)
  | pointer (p : Key)
  | str (s : String)
  | tuple (t : List Value)

/-- Discriminant of a `Value`, giving the across-variant order. -/
def Value.tag : Value → Nat
  | .none => 0
  | .int _ => 1
  | .float _ => 2
  | .intArray _ => 3
  | .floatArray _ => 4
  | .pointer _ => 5
  | .str _ => 6
  | .tuple _ => 7

mutual

/-- Modelled from the spec: the total order on `Value` — across variants by
tag, within a variant by the payload's natural order, sequences ordered
lexicographically. -/
def Value.cmp : Value → Value → Ordering
  | .none, .none => .eq
  | .int a, .int b => lcmp a b
  | .float a, .float b => lcmp a b
  | .intArray a, .intArray b => lcmp a b
  | .floatArray a, .floatArray b => lcmp a b
  | .pointer a, .pointer b => lcmp a b
  | .str a, .str b => lcmp a b
  | .tuple a, .tuple b => Value.cmpList a b
  | a, b => lcmp a.tag b.tag

/-- Lexicographic comparison of `Value` sequences. -/
def Value.cmpList : List Value → List Value → Ordering
  | [], [] => .eq
  | [], _ :: _ => .lt
  | _ :: _, [] => .gt
  | a :: as, b :: bs => (Value.cmp a b).then (Value.cmpList as bs)

end

/-- `true` exactly on the integer variant. -/
def Value.isInt : Value → Bool
  | .int _ => true
  | _ => false

/-- `true` exactly on the float variant. -/
def Value.isFloat : Value → Bool
  | .float _ => true
  | _ => false

/-- `true` exactly on the two array variants. -/
def Value.isArray : Value → Bool
  | .intArray _ => true
  | .floatArray _ => true
  | _ => false

/-! ## Laws of the Value order -/

theorem Value.cmpList_swap_of : ∀ (l1 l2 : List Value),
    (∀ x ∈ l1, ∀ b, Value.cmp x b = (Value.cmp b x).swap) →
    Value.cmpList l1 l2 = (Value.cmpList l2 l1).swap := by
  intro l1
  induction l1 with
  | nil => intro l2 _; cases l2 <;> simp [Value.cmpList, Ordering.swap]
  | cons x xs ih =>
    intro l2 hx
    cases l2 with
    | nil => simp [Value.cmpList, Ordering.swap]
    | cons y ys =>
      have h1 : Value.cmp x y = (Value.cmp y x).swap := hx x (by simp) y
      have h2 : Value.cmpList xs ys = (Value.cmpList ys xs).swap :=
        ih ys (fun a ha b => hx a (by simp [ha]) b)
      simp only [Value.cmpList]
      rw [Ordering.then_swap, ← h1, ← h2]

theorem Value.cmp_swap (a b : Value) : Value.cmp a b = (Value.cmp b a).swap := by
  have main : ∀ (n : Nat) (a b : Value), sizeOf a ≤ n →
      Value.cmp a b = (Value.cmp b a).swap := by
    intro n
    induction n with
    | zero => intro a b h; cases a <;> simp at h
    | succ n ih =>
      intro a b h
      cases a <;> cases b <;>
        first
        | (simp only [Value.cmp]; exact lcmp_swap _ _)
        | (simp [Value.cmp, Ordering.swap]; done)
        | (simp only [Value.cmp]
           refine Value.cmpList_swap_of _ _ (fun x hx b' => ih x b' ?_)
           have h1 := List.sizeOf_lt_of_mem hx
           simp only [Value.tuple.sizeOf_spec] at h
           omega)
  exact main (sizeOf a) a b le_rfl

theorem Value.cmp_refl (a : Value) : Value.cmp a a = .eq :=
  Ordering.eq_of_eq_swap (Value.cmp_swap a a)

theorem Value.cmpList_eq_of : ∀ (l1 l2 : List Value),
    (∀ x ∈ l1, ∀ b, Value.cmp x b = .eq → x = b) →
    Value.cmpList l1 l2 = .eq → l1 = l2 := by
  intro l1
  induction l1 with
  | nil =>
    intro l2 _ h
    cases l2 with
    | nil => rfl
    | cons y ys => simp [Value.cmpList] at h
  | cons x xs ih =>
    intro l2 hx h
    cases l2 with
    | nil => simp [Value.cmpList] at h
    | cons y ys =>
      simp only [Value.cmpList, Ordering.then_eq_eq] at h
      rw [hx x (by simp) y h.1, ih ys (fun a ha b => hx a (by simp [ha]) b) h.2]

theorem Value.cmp_eq_faithful : ∀ (a b : Value), Value.cmp a b = .eq → a = b := by
  have main : ∀ (n : Nat) (a b : Value), sizeOf a ≤ n →
      Value.cmp a b = .eq → a = b := by
    intro n
    induction n with
    | zero => intro a b h; cases a <;> simp at h
    | succ n ih =>
      intro a b h hab
      cases a <;> cases b <;>
        first
        | rfl
        | (simp only [Value.cmp] at hab
           exact absurd (lcmp_eq_eq.1 hab) (by simp [Value.tag]))
        | (simp only [Value.cmp] at hab
           exact congrArg _ (lcmp_eq_eq.1 hab))
        | (simp only [Value.cmp] at hab
           exact congrArg _ (Value.cmpList_eq_of _ _
             (fun x hx b' hb => ih x b' (by
               have h1 := List.sizeOf_lt_of_mem hx
               simp only [Value.tuple.sizeOf_spec] at h
               omega) hb) hab))
  exact fun a b => main (sizeOf a) a b le_rfl

theorem Value.cmp_cross (a b : Value) (hab : a.tag ≠ b.tag) :
    Value.cmp a b = lcmp a.tag b.tag := by
  cases a <;> cases b <;> first | (simp_all [Value.tag]; done) | (simp [Value.cmp])

theorem Value.cmpList_le_trans_of : ∀ (l1 l2 l3 : List Value),
    (∀ x ∈ l1, ∀ b c, Value.cmp x b ≠ .gt → Value.cmp b c ≠ .gt →
      Value.cmp x c ≠ .gt) →
    Value.cmpList l1 l2 ≠ .gt → Value.cmpList l2 l3 ≠ .gt →
    Value.cmpList l1 l3 ≠ .gt := by
  intro l1
  induction l1 with
  | nil => intro l2 l3 _ _ _; cases l3 <;> simp [Value.cmpList]
  | cons x xs ih =>
    intro l2 l3 hx h12 h23
    cases l2 with
    | nil => simp [Value.cmpList] at h12
    | cons y ys =>
      cases l3 with
      | nil => simp [Value.cmpList] at h23
      | cons z zs =>
        simp only [Value.cmpList] at h12 h23 ⊢
        rcases Ordering.then_ne_gt.1 h12 with hxy | ⟨hxy, hts⟩
        · rcases Ordering.then_ne_gt.1 h23 with hyz | ⟨hyz, hts2⟩
          · refine Ordering.then_ne_gt.2 (Or.inl ?_)
            rcases h3 : Value.cmp x z with _ | _ | _
            · rfl
            · exfalso
              have hxz := Value.cmp_eq_faithful x z h3
              subst hxz
              have hs := Value.cmp_swap x y
              rw [hxy, hyz] at hs
              simp [Ordering.swap] at hs
            · exact absurd h3
                (hx x (by simp) y z (by simp [hxy]) (by simp [hyz]))
          · have h' := Value.cmp_eq_faithful y z hyz
            subst h'
            exact Ordering.then_ne_gt.2 (Or.inl hxy)
        · have h' := Value.cmp_eq_faithful x y hxy
          subst h'
          rcases Ordering.then_ne_gt.1 h23 with hyz | ⟨hyz, hts2⟩
          · exact Ordering.then_ne_gt.2 (Or.inl hyz)
          · refine Ordering.then_ne_gt.2 (Or.inr ⟨hyz, ?_⟩)
            exact ih ys zs (fun a ha b c => hx a (by simp [ha]) b c) hts hts2

theorem Value.cmp_le_trans : ∀ (a b c : Value),
    Value.cmp a b ≠ .gt → Value.cmp b c ≠ .gt → Value.cmp a c ≠ .gt := by
  have main : ∀ (n : Nat) (a b c : Value), sizeOf a ≤ n →
      Value.cmp a b ≠ .gt → Value.cmp b c ≠ .gt → Value.cmp a c ≠ .gt := by
    intro n
    induction n with
    | zero => intro a _ _ h; cases a <;> simp at h
    | succ n ih =>
      intro a b c h hab hbc
      rcases Nat.lt_trichotomy a.tag b.tag with h1 | h1 | h1
      · rcases Nat.lt_trichotomy b.tag c.tag with h2 | h2 | h2
        · rw [Value.cmp_cross a c (by omega)]
          simp only [ne_eq, lcmp_eq_gt]; omega
        · rw [Value.cmp_cross a c (by omega)]
          simp only [ne_eq, lcmp_eq_gt]; omega
        · exfalso; apply hbc
          rw [Value.cmp_cross b c (by omega)]
          exact lcmp_eq_gt.2 h2
      · rcases Nat.lt_trichotomy b.tag c.tag with h2 | h2 | h2
        · rw [Value.cmp_cross a c (by omega)]
          simp only [ne_eq, lcmp_eq_gt]; omega
        · cases a <;> cases b <;> cases c <;>
            first
            | (simp [Value.tag] at h1 h2; done)
            | (simp only [Value.cmp] at hab hbc ⊢
               exact lcmp_le_trans hab hbc)
            | (simp [Value.cmp]; done)
            | (simp only [Value.cmp] at hab hbc ⊢
               refine Value.cmpList_le_trans_of _ _ _
                 (fun x hx b' c' => ih x b' c' ?_) hab hbc
               have h1' := List.sizeOf_lt_of_mem hx
               simp only [Value.tuple.sizeOf_spec] at h
               omega)
        · exfalso; apply hbc
          rw [Value.cmp_cross b c (by omega)]
          exact lcmp_eq_gt.2 h2
      · exfalso; apply hab
        rw [Value.cmp_cross a b (by omega)]
        exact lcmp_eq_gt.2 h1
  exact fun a b c => main (sizeOf a) a b c le_rfl

theorem lcmp_lt_of_lt_of_le {α : Type _} [LinearOrder α] {a b c : α}
    (h1 : lcmp a b = .lt) (h2 : lcmp b c ≠ .gt) : lcmp a c = .lt :=
  lcmp_eq_lt.2 (lt_of_lt_of_le (lcmp_eq_lt.1 h1) (lcmp_ne_gt.1 h2))

theorem lcmp_lt_of_le_of_lt {α : Type _} [LinearOrder α] {a b c : α}
    (h1 : lcmp a b ≠ .gt) (h2 : lcmp b c = .lt) : lcmp a c = .lt :=
  lcmp_eq_lt.2 (lt_of_le_of_lt (lcmp_ne_gt.1 h1) (lcmp_eq_lt.1 h2))

theorem Value.cmp_lt_of_lt_of_le {a b c : Value}
    (hab : Value.cmp a b = .lt) (hbc : Value.cmp b c ≠ .gt) :
    Value.cmp a c = .lt := by
  rcases h3 : Value.cmp a c with _ | _ | _
  · rfl
  · exfalso
    have hac := Value.cmp_eq_faithful a c h3
    subst hac
    have hs := Value.cmp_swap b a
    rw [hab] at hs
    exact hbc hs
  · exfalso
    exact Value.cmp_le_trans a b c (by simp [hab]) hbc h3

theorem Value.cmp_lt_of_le_of_lt {a b c : Value}
    (hab : Value.cmp a b ≠ .gt) (hbc : Value.cmp b c = .lt) :
    Value.cmp a c = .lt := by
  rcases h3 : Value.cmp a c with _ | _ | _
  · rfl
  · exfalso
    have hac := Value.cmp_eq_faithful a c h3
    subst hac
    have hs := Value.cmp_swap a b
    rw [hbc] at hs
    exact hab hs
  · exfalso
    exact Value.cmp_le_trans a b c hab (by simp [hbc]) h3

/-! ## Rust iterator selection folds

`Iterator::min_by(_key)` keeps the current candidate unless the new element
is strictly smaller (first minimal element wins); `Iterator::max_by(_key)`
replaces the current candidate unless it is strictly greater (last maximal
element wins). -/

/-- The fold underlying Rust's `Iterator::min`/`min_by_key`. -/
def foldMin {α : Type _} (cmp : α → α → Ordering) (x : α) (l : List α) : α :=
  l.foldl (fun b y => if cmp y b = .lt then y else b) x

/-- The fold underlying Rust's `Iterator::max`/`max_by_key`. -/
def foldMax {α : Type _} (cmp : α → α → Ordering) (x : α) (l : List α) : α :=
  l.foldl (fun b y => if cmp b y = .gt then b else y) x

theorem foldMin_mem {α : Type _} (cmp : α → α → Ordering) :
    ∀ (l : List α) (x : α), foldMin cmp x l = x ∨ foldMin cmp x l ∈ l := by
  intro l
  induction l with
  | nil => intro x; left; rfl
  | cons z rest ih =>
    intro x
    have hstep : foldMin cmp x (z :: rest) =
        foldMin cmp (if cmp z x = .lt then z else x) rest := rfl
    rw [hstep]
    rcases ih (if cmp z x = .lt then z else x) with h | h
    · rw [h]; split
      · right; simp
      · left; rfl
    · right; simp [h]

theorem foldMax_mem {α : Type _} (cmp : α → α → Ordering) :
    ∀ (l : List α) (x : α), foldMax cmp x l = x ∨ foldMax cmp x l ∈ l := by
  intro l
  induction l with
  | nil => intro x; left; rfl
  | cons z rest ih =>
    intro x
    have hstep : foldMax cmp x (z :: rest) =
        foldMax cmp (if cmp x z = .gt then x else z) rest := rfl
    rw [hstep]
    rcases ih (if cmp x z = .gt then x else z) with h | h
    · rw [h]; split
      · left; rfl
      · right; simp
    · right; simp [h]

theorem foldMin_le {α : Type _} {cmp : α → α → Ordering}
    (hswap : ∀ a b, cmp a b = (cmp b a).swap)
    (htrans : ∀ a b c, cmp a b ≠ .gt → cmp b c ≠ .gt → cmp a c ≠ .gt) :
    ∀ (l : List α) (x y : α), (y = x ∨ y ∈ l) →
      cmp (foldMin cmp x l) y ≠ .gt := by
  have hrefl : ∀ a, cmp a a = .eq := fun a => Ordering.eq_of_eq_swap (hswap a a)
  intro l
  induction l with
  | nil =>
    intro x y hy
    rcases hy with rfl | h
    · simp [foldMin, hrefl]
    · simp at h
  | cons z rest ih =>
    intro x y hy
    have hstep : foldMin cmp x (z :: rest) =
        foldMin cmp (if cmp z x = .lt then z else x) rest := rfl
    rw [hstep]
    have hb1x : cmp (if cmp z x = .lt then z else x) x ≠ .gt := by
      by_cases hc : cmp z x = .lt
      · simp [hc]
      · simp [hc, hrefl]
    have hb1z : cmp (if cmp z x = .lt then z else x) z ≠ .gt := by
      by_cases hc : cmp z x = .lt
      · simp [hc, hrefl]
      · simp only [hc, if_false]
        rcases h' : cmp z x with _ | _ | _
        · exact absurd h' hc
        · simp [hswap x z, h', Ordering.swap]
        · simp [hswap x z, h', Ordering.swap]
    have hb1 : cmp (foldMin cmp (if cmp z x = .lt then z else x) rest)
        (if cmp z x = .lt then z else x) ≠ .gt := ih _ _ (Or.inl rfl)
    rcases hy with rfl | hy
    · exact htrans _ _ _ hb1 hb1x
    · rcases List.mem_cons.1 hy with rfl | hy
      · exact htrans _ _ _ hb1 hb1z
      · exact ih _ _ (Or.inr hy)

theorem foldMax_ge {α : Type _} {cmp : α → α → Ordering}
    (hswap : ∀ a b, cmp a b = (cmp b a).swap)
    (htrans : ∀ a b c, cmp a b ≠ .gt → cmp b c ≠ .gt → cmp a c ≠ .gt) :
    ∀ (l : List α) (x y : α), (y = x ∨ y ∈ l) →
      cmp y (foldMax cmp x l) ≠ .gt := by
  have hrefl : ∀ a, cmp a a = .eq := fun a => Ordering.eq_of_eq_swap (hswap a a)
  intro l
  induction l with
  | nil =>
    intro x y hy
    rcases hy with rfl | h
    · simp [foldMax, hrefl]
    · simp at h
  | cons z rest ih =>
    intro x y hy
    have hstep : foldMax cmp x (z :: rest) =
        foldMax cmp (if cmp x z = .gt then x else z) rest := rfl
    rw [hstep]
    have hxb1 : cmp x (if cmp x z = .gt then x else z) ≠ .gt := by
      by_cases hc : cmp x z = .gt
      · simp [hc, hrefl]
      · simp [hc]
    have hzb1 : cmp z (if cmp x z = .gt then x else z) ≠ .gt := by
      by_cases hc : cmp x z = .gt
      · simp only [hc, if_true]
        simp [hswap z x, hc, Ordering.swap]
      · simp [hc, hrefl]
    have hb1 : cmp (if cmp x z = .gt then x else z)
        (foldMax cmp (if cmp x z = .gt then x else z) rest) ≠ .gt :=
      ih _ _ (Or.inl rfl)
    rcases hy with rfl | hy
    · exact htrans _ _ _ hxb1 hb1
    · rcases List.mem_cons.1 hy with rfl | hy
      · exact htrans _ _ _ hzb1 hb1
      · exact ih _ _ (Or.inr hy)

/-- The first-minimum fold computes the unique minimum whenever the
comparator separates the elements in play. -/
theorem foldMin_eq_of_min {α : Type _} {cmp : α → α → Ordering}
    (hswap : ∀ a b, cmp a b = (cmp b a).swap)
    (htrans : ∀ a b c, cmp a b ≠ .gt → cmp b c ≠ .gt → cmp a c ≠ .gt)
    (l : List α) (x : α) (m : α)
    (hmem : m = x ∨ m ∈ l)
    (hle : ∀ y, (y = x ∨ y ∈ l) → cmp m y ≠ .gt)
    (hstrict : ∀ a, (a = x ∨ a ∈ l) → cmp a m = .eq → a = m) :
    foldMin cmp x l = m := by
  have h1 : cmp (foldMin cmp x l) m ≠ .gt := foldMin_le hswap htrans l x m hmem
  have h2 : cmp m (foldMin cmp x l) ≠ .gt := hle _ (foldMin_mem cmp l x)
  have h3 : cmp (foldMin cmp x l) m ≠ .lt := by
    intro hlt
    apply h2
    rw [hswap m (foldMin cmp x l), hlt]
    rfl
  have h4 : cmp (foldMin cmp x l) m = .eq := by
    rcases h : cmp (foldMin cmp x l) m with _ | _ | _
    · exact absurd h h3
    · rfl
    · exact absurd h h1
  exact hstrict _ (foldMin_mem cmp l x) h4

/-! ## The Reducer enum (`reduce.rs` lines 17-30) -/

/-- The `Reducer` enum selecting an aggregation strategy. -/
inductive Reducer where
  | floatSum
  | intSum
  | arraySum
  | unique
  | min
  | argMin
  | max
  | argMax
  | sortedTuple (skipNones : Bool)
  | tuple (skipNones : Bool)
  | any

/-! ## IntSum (`IntSumState`, `IntSumReducer`)

State of the semigroup-style integer sum: `count: isize`, `sum: i64`, both
modelled as wrapping 64-bit integers. -/

/-- The `IntSumState` struct. -/
structure IntSumState where
  count : Int
  sum : Int
deriving DecidableEq

/-- `Semigroup::is_zero` for `IntSumState`: both fields are zero. -/
def IntSumState.is_zero (s : IntSumState) : Prop := s.count = 0 ∧ s.sum = 0

instance (s : IntSumState) : Decidable s.is_zero := by
  unfold IntSumState.is_zero; infer_instance

/-- `Semigroup::plus_equals` for `IntSumState`: component-wise addition
(wrapping, as `+=` does in a release build). -/
def IntSumState.plus (s t : IntSumState) : IntSumState :=
  ⟨wrap64 (s.count + t.count), wrap64 (s.sum + t.sum)⟩

/-- `Multiply<isize>` for `IntSumState`: both fields scaled by the
multiplier (the `i64::try_from(isize)` conversion always succeeds on a
64-bit platform). -/
def IntSumState.multiply (s : IntSumState) (k : Int) : IntSumState :=
  ⟨wrap64 (s.count * k), wrap64 (s.sum * k)⟩

/-- `IntSumState::single`. -/
def IntSumState.single (val : Int) : IntSumState := ⟨1, val⟩

/-- Both fields of the state are in the `i64` range. -/
def IntSumState.inRange (s : IntSumState) : Prop :=
  InRange64 s.count ∧ InRange64 s.sum

instance (s : IntSumState) : Decidable s.inRange := by
  unfold IntSumState.inRange; infer_instance

/-- `SemigroupReducerImpl::init` for `IntSumReducer`: an integer value
yields the single-row state; any other value panics ("unsupported type for
int_sum"), modelled as `Except.error`. -/
def IntSumReducer.init (_key : Key) (value : Value) :
    Except String (Option IntSumState) :=
  match value with
  | .int i => .ok (some (IntSumState.single i))
  | _ => .error "unsupported type for int_sum"

/-- `SemigroupReducerImpl::finish` for `IntSumReducer`: returns the sum,
discarding the count. -/
def IntSumReducer.finish (state : IntSumState) : Value := .int state.sum

/-! ## FloatSum (`FloatSumReducer`)

The state is a single float (modelled as a rational). -/

/-- `UnaryReducerImpl::init_unary` for `FloatSumReducer`: floats are
accepted, anything else yields `none` (soft "not applicable", no panic). -/
def FloatSumReducer.init_unary (_key : Key) (value : Value) : Option ℚ :=
  match value with
  | .float f => some f
  | _ => none

/-- `UnaryReducerImpl::combine` for `FloatSumReducer`: each partial value
is multiplied by its multiplicity and the products are summed. -/
def FloatSumReducer.combine (values : List (ℚ × Nat)) : ℚ :=
  (values.map (fun p => p.1 * (p.2 : ℚ))).sum

/-- `UnaryReducerImpl::finish` for `FloatSumReducer`. -/
def FloatSumReducer.finish (state : ℚ) : Value := .float state

/-! ## ArraySum (`ArraySumState`, `ArraySumReducer`) -/

/-- The transient `ArraySumState`: an all-integer or all-float array. -/
inductive ArraySumState where
  | intA (a : List Int)
  | floatA (a : List ℚ)

/-- `ArraySumState::new`: wraps an array value, scaling by the
multiplicity when it exceeds 1 (`array * cnt`, computed once); a
non-array value panics ("unsupported type for npsum").  The
`i64::try_from(cnt)` conversion fails (panics) for counts beyond
`i64::MAX`. -/
def ArraySumState.new (value : Value) (cnt : Nat) :
    Except String ArraySumState :=
  match value with
  | .intArray a =>
    if cnt = 1 then .ok (.intA a)
    else if cnt < 2 ^ 63 then
      .ok (.intA (a.map (fun x => wrap64 (x * (cnt : Int)))))
    else .error "out of range integral type conversion attempted"
  | .floatArray a =>
    if cnt = 1 then .ok (.floatA a)
    else .ok (.floatA (a.map (fun x => x * (cnt : ℚ))))
  | _ => .error "unsupported type for npsum"

/-- `Add for ArraySumState`: element-wise addition; mixing the integer and
float variants panics ("mixing types in npsum is not allowed").  (ndarray
addition of incompatible shapes also panics; broadcasting of
size-1 operands is not modelled, the claims checked here never mix
shapes.) -/
def ArraySumState.add (s t : ArraySumState) : Except String ArraySumState :=
  match s, t with
  | .intA a, .intA b =>
    if a.length = b.length then
      .ok (.intA (List.zipWith (fun x y => wrap64 (x + y)) a b))
    else .error "ShapeError"
  | .floatA a, .floatA b =>
    if a.length = b.length then
      .ok (.floatA (List.zipWith (fun x y => x + y) a b))
    else .error "ShapeError"
  | _, _ => .error "mixing types in npsum is not allowed"

/-- `From<ArraySumState> for Value`. -/
def ArraySumState.toValue : ArraySumState → Value
  | .intA a => .intArray a
  | .floatA a => .floatArray a

/-- `UnaryReducerImpl::init_unary` for `ArraySumReducer`: stores the raw
value. -/
def ArraySumReducer.init_unary (_key : Key) (value : Value) : Option Value :=
  some value

/-- `UnaryReducerImpl::combine` for `ArraySumReducer`: converts each
`(value, cnt)` into an `ArraySumState` and folds with `+`
(`reduce(|a, b| a + b)`, lazily: each state is built as the fold reaches
it); an empty input panics (`expect("values should not be empty")`). -/
def ArraySumReducer.combine (values : List (Value × Nat)) :
    Except String Value :=
  match values with
  | [] => .error "values should not be empty"
  | (v, n) :: rest => do
    let s0 ← ArraySumState.new v n
    let s ← rest.foldlM (fun acc p => do
      let sx ← ArraySumState.new p.1 p.2
      acc.add sx) s0
    pure s.toValue

/-- `UnaryReducerImpl::finish` for `ArraySumReducer`. -/
def ArraySumReducer.finish (state : Value) : Value := state

/-! ## Unique (`UniqueReducer`)

The consolidated input is a multiset of distinct partial states, each with
its multiplicity. -/

/-- `UnaryReducerImpl::init_unary` for `UniqueReducer`. -/
def UniqueReducer.init_unary (_key : Key) (value : Value) :
    Option (Option Value) :=
  some (some value)

/-- `UnaryReducerImpl::combine` for `UniqueReducer`: takes the first state
(`unwrap` panics on an empty input) and asserts that no second entry
exists ("More than one distinct value passed to the unique reducer."). -/
def UniqueReducer.combine (values : List (Option Value × Nat)) :
    Except String (Option Value) :=
  match values with
  | [] => .error "called Option unwrap on a None value"
  | (state, _cnt) :: rest =>
    match rest with
    | [] => .ok state
    | _ :: _ => .error "More than one distinct value passed to the unique reducer."

/-- `UnaryReducerImpl::finish` for `UniqueReducer`: the stored value, or
the absent value if nothing was observed. -/
def UniqueReducer.finish (state : Option Value) : Value :=
  match state with
  | some v => v
  | Option.none => .none

/-! ## Min / Max (`MinReducer`, `MaxReducer`) -/

/-- `UnaryReducerImpl::init_unary` for `MinReducer`. -/
def MinReducer.init_unary (_key : Key) (value : Value) : Option Value :=
  some value

/-- `UnaryReducerImpl::combine` for `MinReducer`: minimum value, counts
ignored; `unwrap` panics on an empty input (modelled as `none`). -/
def MinReducer.combine (values : List (Value × Nat)) : Option Value :=
  match values.map Prod.fst with
  | [] => Option.none
  | x :: xs => some (foldMin Value.cmp x xs)

/-- `UnaryReducerImpl::finish` for `MinReducer`. -/
def MinReducer.finish (state : Value) : Value := state

/-- `UnaryReducerImpl::init_unary` for `MaxReducer`. -/
def MaxReducer.init_unary (_key : Key) (value : Value) : Option Value :=
  some value

/-- `UnaryReducerImpl::combine` for `MaxReducer`. -/
def MaxReducer.combine (values : List (Value × Nat)) : Option Value :=
  match values.map Prod.fst with
  | [] => Option.none
  | x :: xs => some (foldMax Value.cmp x xs)

/-- `UnaryReducerImpl::finish` for `MaxReducer`. -/
def MaxReducer.finish (state : Value) : Value := state

/-! ## ArgMin / ArgMax (`ArgMinReducer`, `ArgMaxReducer`) -/

/-- Comparison of `(Value, Key)` states by Rust's derived tuple order
(lexicographic). -/
def argCmp (a b : Value × Key) : Ordering :=
  (Value.cmp a.1 b.1).then (lcmp a.2 b.2)

/-- The `max_by_key` key of `ArgMaxReducer::combine`:
`(value, Reverse(key))`, i.e. the key comparison is reversed. -/
def argMaxCmp (a b : Value × Key) : Ordering :=
  (Value.cmp a.1 b.1).then (lcmp b.2 a.2)

/-- `UnaryReducerImpl::init_unary` for `ArgMinReducer`. -/
def ArgMinReducer.init_unary (key : Key) (value : Value) :
    Option (Value × Key) :=
  some (value, key)

/-- `UnaryReducerImpl::combine` for `ArgMinReducer`: `.min()` over the
`(Value, Key)` states; `unwrap` panics on an empty input. -/
def ArgMinReducer.combine (values : List ((Value × Key) × Nat)) :
    Option (Value × Key) :=
  match values.map Prod.fst with
  | [] => Option.none
  | x :: xs => some (foldMin argCmp x xs)

/-- `UnaryReducerImpl::finish` for `ArgMinReducer`: a pointer to the
winning key. -/
def ArgMinReducer.finish (state : Value × Key) : Value := .pointer state.2

/-- `UnaryReducerImpl::init_unary` for `ArgMaxReducer`. -/
def ArgMaxReducer.init_unary (key : Key) (value : Value) :
    Option (Value × Key) :=
  some (value, key)

/-- `UnaryReducerImpl::combine` for `ArgMaxReducer`:
`.max_by_key(|(value, key)| (value, Reverse(key)))`. -/
def ArgMaxReducer.combine (values : List ((Value × Key) × Nat)) :
    Option (Value × Key) :=
  match values.map Prod.fst with
  | [] => Option.none
  | x :: xs => some (foldMax argMaxCmp x xs)

/-- `UnaryReducerImpl::finish` for `ArgMaxReducer`. -/
def ArgMaxReducer.finish (state : Value × Key) : Value := .pointer state.2

/-! ## Any (`AnyReducer`) -/

/-- The `min_by_key` key of `AnyReducer::combine`:
`(key.salted_with(SALT), value)`. -/
def anyCmp (a b : Key × Value) : Ordering :=
  (lcmp (Key.salted_with a.1 SALT) (Key.salted_with b.1 SALT)).then
    (Value.cmp a.2 b.2)

/-- `UnaryReducerImpl::init_unary` for `AnyReducer`. -/
def AnyReducer.init_unary (key : Key) (value : Value) :
    Option (Key × Value) :=
  some (key, value)

/-- `UnaryReducerImpl::combine` for `AnyReducer`:
`.min_by_key(|(key, value)| (key.salted_with(SALT), value))`; `unwrap`
panics on an empty input. -/
def AnyReducer.combine (values : List ((Key × Value) × Nat)) :
    Option (Key × Value) :=
  match values.map Prod.fst with
  | [] => Option.none
  | x :: xs => some (foldMin anyCmp x xs)

/-- `UnaryReducerImpl::finish` for `AnyReducer`: the value of the selected
pair. -/
def AnyReducer.finish (state : Key × Value) : Value := state.2

/-! ## SortedTuple (`SortedTupleReducer`) -/

/-- Boolean form of the Value order, for sorting. -/
def Value.leb (a b : Value) : Bool :=
  match Value.cmp a b with
  | .gt => false
  | _ => true

/-- `UnaryReducerImpl::init_unary` for `SortedTupleReducer`: an absent
value contributes an empty sequence when `skip_nones` is set, otherwise a
one-element sequence. -/
def SortedTupleReducer.init_unary (skipNones : Bool) (_key : Key)
    (value : Value) : Option (List Value) :=
  match value, skipNones with
  | .none, true => some []
  | v, _ => some [v]

/-- `UnaryReducerImpl::combine` for `SortedTupleReducer`: concatenates all
partial sequences, each element repeated `cnt` times. -/
def SortedTupleReducer.combine (values : List (List Value × Nat)) :
    List Value :=
  values.flatMap (fun p => p.1.flatMap (fun v => List.replicate p.2 v))

/-- `UnaryReducerImpl::finish` for `SortedTupleReducer`: sorts and wraps
into a sequence value. -/
def SortedTupleReducer.finish (state : List Value) : Value :=
  .tuple (state.mergeSort Value.leb)

/-! ## Tuple (`TupleReducer`) -/

/-- Boolean lexicographic order on the
`(Option<Value>, Key, Value)` triples of `TupleReducer` (Rust derived
order: `None < Some`, then the payloads). -/
def tripleCmp (a b : Option Value × Key × Value) : Ordering :=
  (match a.1, b.1 with
   | Option.none, Option.none => Ordering.eq
   | Option.none, some _ => Ordering.lt
   | some _, Option.none => Ordering.gt
   | some x, some y => Value.cmp x y).then
    ((lcmp a.2.1 b.2.1).then (Value.cmp a.2.2 b.2.2))

/-- Boolean form of `tripleCmp`, for sorting. -/
def tripleLeb (a b : Option Value × Key × Value) : Bool :=
  match tripleCmp a b with
  | .gt => false
  | _ => true

/-- `ReducerImpl::init` for `TupleReducer` (`values` is the non-empty
column list; index 0 is the primary value, index 1, when present, the
secondary sort key).  The engine never passes an empty column list;
`values[0]` would panic there, modelled as `none`. -/
def TupleReducer.init (skipNones : Bool) (key : Key) (values : List Value) :
    Option (List (Option Value × Key × Value)) :=
  match values, skipNones with
  | [], _ => Option.none
  | .none :: _, true => some []
  | v0 :: v1 :: _, _ => some [(some v1, key, v0)]
  | [v0], _ => some [(Option.none, key, v0)]

/-- `ReducerImpl::combine` for `TupleReducer`: concatenates all partial
sequences, each element repeated `cnt` times. -/
def TupleReducer.combine
    (values : List (List (Option Value × Key × Value) × Nat)) :
    List (Option Value × Key × Value) :=
  values.flatMap (fun p => p.1.flatMap (fun v => List.replicate p.2 v))

/-- `ReducerImpl::finish` for `TupleReducer`: sorts the triples and emits
the primary values. -/
def TupleReducer.finish (state : List (Option Value × Key × Value)) : Value :=
  .tuple ((state.mergeSort tripleLeb).map (fun t => t.2.2))

/-! ## Laws of the composite comparators -/

theorem argCmp_swap (a b : Value × Key) : argCmp a b = (argCmp b a).swap := by
  unfold argCmp
  rw [Ordering.then_swap, ← Value.cmp_swap, ← lcmp_swap]

theorem argCmp_le_trans (a b c : Value × Key)
    (hab : argCmp a b ≠ .gt) (hbc : argCmp b c ≠ .gt) : argCmp a c ≠ .gt := by
  unfold argCmp at *
  rcases Ordering.then_ne_gt.1 hab with h1 | ⟨h1, h1t⟩ <;>
    rcases Ordering.then_ne_gt.1 hbc with h2 | ⟨h2, h2t⟩
  · exact Ordering.then_ne_gt.2
      (Or.inl (Value.cmp_lt_of_lt_of_le h1 (by simp [h2])))
  · have e := Value.cmp_eq_faithful _ _ h2
    exact Ordering.then_ne_gt.2 (Or.inl (by rw [← e]; exact h1))
  · have e := Value.cmp_eq_faithful _ _ h1
    exact Ordering.then_ne_gt.2 (Or.inl (by rw [e]; exact h2))
  · have e := Value.cmp_eq_faithful _ _ h1
    exact Ordering.then_ne_gt.2
      (Or.inr ⟨by rw [e]; exact h2, lcmp_le_trans h1t h2t⟩)

theorem argMaxCmp_swap (a b : Value × Key) :
    argMaxCmp a b = (argMaxCmp b a).swap := by
  unfold argMaxCmp
  rw [Ordering.then_swap, ← Value.cmp_swap, ← lcmp_swap]

theorem argMaxCmp_le_trans (a b c : Value × Key)
    (hab : argMaxCmp a b ≠ .gt) (hbc : argMaxCmp b c ≠ .gt) :
    argMaxCmp a c ≠ .gt := by
  unfold argMaxCmp at *
  rcases Ordering.then_ne_gt.1 hab with h1 | ⟨h1, h1t⟩ <;>
    rcases Ordering.then_ne_gt.1 hbc with h2 | ⟨h2, h2t⟩
  · exact Ordering.then_ne_gt.2
      (Or.inl (Value.cmp_lt_of_lt_of_le h1 (by simp [h2])))
  · have e := Value.cmp_eq_faithful _ _ h2
    exact Ordering.then_ne_gt.2 (Or.inl (by rw [← e]; exact h1))
  · have e := Value.cmp_eq_faithful _ _ h1
    exact Ordering.then_ne_gt.2 (Or.inl (by rw [e]; exact h2))
  · have e := Value.cmp_eq_faithful _ _ h1
    exact Ordering.then_ne_gt.2
      (Or.inr ⟨by rw [e]; exact h2, lcmp_le_trans h2t h1t⟩)

theorem anyCmp_swap (a b : Key × Value) : anyCmp a b = (anyCmp b a).swap := by
  unfold anyCmp
  rw [Ordering.then_swap, ← lcmp_swap, ← Value.cmp_swap]

theorem anyCmp_le_trans (a b c : Key × Value)
    (hab : anyCmp a b ≠ .gt) (hbc : anyCmp b c ≠ .gt) : anyCmp a c ≠ .gt := by
  unfold anyCmp at *
  rcases Ordering.then_ne_gt.1 hab with h1 | ⟨h1, h1t⟩ <;>
    rcases Ordering.then_ne_gt.1 hbc with h2 | ⟨h2, h2t⟩
  · exact Ordering.then_ne_gt.2 (Or.inl (lcmp_lt_of_lt_of_le h1 (by simp [h2])))
  · have e := lcmp_eq_eq.1 h2
    exact Ordering.then_ne_gt.2 (Or.inl (by rw [← e]; exact h1))
  · have e := lcmp_eq_eq.1 h1
    exact Ordering.then_ne_gt.2 (Or.inl (by rw [e]; exact h2))
  · have e := lcmp_eq_eq.1 h1
    exact Ordering.then_ne_gt.2
      (Or.inr ⟨by rw [e]; exact h2, Value.cmp_le_trans _ _ _ h1t h2t⟩)

/-! ## Claims about IntSum -/

/-- Claim C2: for IntSum, `init` on `Value::Int(i)` yields the state
`(count = 1, sum = i)`; `init` on any non-integer value panics; `finish`
returns `Value::Int` of the sum field, discarding the count; in
particular, summing the inputs 5, -3 and 10 (each observed once) and
finishing yields `Value::Int(12)`. -/
theorem c2_intsum_init_finish :
    (∀ (k : Key) (i : Int),
      IntSumReducer.init k (.int i) = .ok (some ⟨1, i⟩)) ∧
    (∀ (k : Key) (v : Value), v.isInt = false →
      IntSumReducer.init k v = .error "unsupported type for int_sum") ∧
    (∀ s : IntSumState, IntSumReducer.finish s = .int s.sum) ∧
    IntSumReducer.finish
      (IntSumState.plus
        (IntSumState.plus (IntSumState.single 5) (IntSumState.single (-3)))
        (IntSumState.single 10)) = .int 12 := by
  refine ⟨fun k i => rfl, ?_, fun s => rfl, ?_⟩
  · intro k v hv
    cases v <;> first | rfl | (simp [Value.isInt] at hv)
  · simp only [IntSumReducer.finish, IntSumState.plus, IntSumState.single,
      wrap64, Value.int.injEq]
    norm_num

/-- Witness for C2 at the non-integer input `Value.none`. -/
theorem c2_intsum_init_finish_witness :
    Value.isInt Value.none = false ∧
    IntSumReducer.init 0 Value.none = .error "unsupported type for int_sum" :=
  ⟨rfl, c2_intsum_init_finish.2.1 0 Value.none rfl⟩

/-- Claim C3: the IntSum state forms a commutative monoid under
`plus_equals` (component-wise addition) with zero `(0, 0)` (`is_zero`
holds exactly there); `multiply` by `k` scales both fields by `k`; and
adding `s.multiply(-1)` to `s` yields a state satisfying `is_zero`. -/
theorem c3_intsum_semigroup :
    (∀ s t : IntSumState, s.plus t = t.plus s) ∧
    (∀ s t u : IntSumState, (s.plus t).plus u = s.plus (t.plus u)) ∧
    (∀ s : IntSumState, s.inRange →
      IntSumState.plus ⟨0, 0⟩ s = s ∧ s.plus ⟨0, 0⟩ = s) ∧
    (∀ s : IntSumState, s.is_zero ↔ s = ⟨0, 0⟩) ∧
    (∀ (s : IntSumState) (k : Int),
      InRange64 (s.count * k) → InRange64 (s.sum * k) →
      s.multiply k = ⟨s.count * k, s.sum * k⟩) ∧
    (∀ s : IntSumState, (s.plus (s.multiply (-1))).is_zero) := by
  refine ⟨?_, ?_, ?_, ?_, ?_, ?_⟩
  · intro s t
    simp only [IntSumState.plus, IntSumState.mk.injEq]
    constructor <;> rw [Int.add_comm]
  · intro s t u
    simp only [IntSumState.plus, IntSumState.mk.injEq]
    constructor <;> rw [wrap64_add_left, wrap64_add_right, Int.add_assoc]
  · rintro ⟨c, su⟩ hs
    simp only [IntSumState.inRange, InRange64] at hs
    constructor <;>
      (simp only [IntSumState.plus, IntSumState.mk.injEq, wrap64]
       constructor <;> omega)
  · rintro ⟨c, su⟩
    simp [IntSumState.is_zero, IntSumState.mk.injEq]
  · rintro ⟨c, su⟩ k h1 h2
    simp only [IntSumState.multiply, IntSumState.mk.injEq]
    exact ⟨wrap64_eq_self h1, wrap64_eq_self h2⟩
  · rintro ⟨c, su⟩
    simp only [IntSumState.plus, IntSumState.multiply, IntSumState.is_zero,
      wrap64]
    constructor <;> omega

/-- Witness for C3 at the concrete state `(2, 5)` and multiplier 3. -/
theorem c3_intsum_semigroup_witness :
    IntSumState.inRange ⟨2, 5⟩ ∧
    IntSumState.plus ⟨0, 0⟩ ⟨2, 5⟩ = ⟨2, 5⟩ ∧
    InRange64 (2 * 3) ∧ InRange64 (5 * 3) ∧
    IntSumState.multiply ⟨2, 5⟩ 3 = ⟨2 * 3, 5 * 3⟩ :=
  ⟨by decide, (c3_intsum_semigroup.2.2.1 ⟨2, 5⟩ (by decide)).1,
    by decide, by decide,
    c3_intsum_semigroup.2.2.2.2.1 ⟨2, 5⟩ 3 (by decide) (by decide)⟩

/-! ## Claims about Unique, FloatSum, and empty combines -/

/-- Claim C4: for Unique, `combine` over the consolidated multiset of
partial states (pairwise-distinct states, each with a multiplicity)
succeeds returning the single state when exactly one distinct state
remains, and fails with the multiple-distinct-values assertion error when
more than one distinct state is present; `finish` returns the stored value
or `Value::None` when nothing was observed.  In particular a group with
the single value "a" yields "a" and a group with distinct values "a" and
"b" fails. -/
theorem c4_unique_combine :
    (∀ (s : Option Value) (m : Nat), UniqueReducer.combine [(s, m)] = .ok s) ∧
    (∀ l : List (Option Value × Nat),
      (l.map Prod.fst).Pairwise (fun a b => a ≠ b) → 2 ≤ l.length →
      UniqueReducer.combine l =
        .error "More than one distinct value passed to the unique reducer.") ∧
    (∀ v : Value, UniqueReducer.finish (some v) = v) ∧
    UniqueReducer.finish Option.none = Value.none ∧
    (UniqueReducer.combine [(some (.str "a"), 1)] = .ok (some (.str "a")) ∧
      UniqueReducer.finish (some (.str "a")) = .str "a") ∧
    UniqueReducer.combine [(some (.str "a"), 1), (some (.str "b"), 1)] =
      .error "More than one distinct value passed to the unique reducer." := by
  refine ⟨fun s m => rfl, ?_, fun v => rfl, rfl, ⟨rfl, rfl⟩, rfl⟩
  intro l _ hl
  rcases l with _ | ⟨x, rest⟩
  · simp at hl
  rcases rest with _ | ⟨y, rest2⟩
  · simp at hl
  · rfl

/-- Witness for C4 at a two-state group with distinct values. -/
theorem c4_unique_combine_witness :
    ([(some (Value.int 1), 1), (some (Value.int 2), 1)].map
        (Prod.fst (α := Option Value) (β := Nat))).Pairwise
      (fun a b => a ≠ b) ∧
    2 ≤ ([(some (Value.int 1), 1), (some (Value.int 2), 1)] :
      List (Option Value × Nat)).length ∧
    UniqueReducer.combine [(some (Value.int 1), 1), (some (Value.int 2), 1)] =
      .error "More than one distinct value passed to the unique reducer." := by
  have hp : ([(some (Value.int 1), 1), (some (Value.int 2), 1)].map
      (Prod.fst (α := Option Value) (β := Nat))).Pairwise
      (fun a b => a ≠ b) := by simp
  exact ⟨hp, by simp,
    c4_unique_combine.2.1 [(some (Value.int 1), 1), (some (Value.int 2), 1)]
      hp (by simp)⟩

/-- Claim C5: for FloatSum, `init_unary` accepts a float value and maps
any other value to the soft not-applicable marker `None` (no panic);
`combine` multiplies each partial value by its multiplicity and sums the
products. -/
theorem c5_floatsum_soft_na :
    (∀ (k : Key) (q : ℚ), FloatSumReducer.init_unary k (.float q) = some q) ∧
    (∀ (k : Key) (v : Value), v.isFloat = false →
      FloatSumReducer.init_unary k v = Option.none) ∧
    (∀ values : List (ℚ × Nat),
      FloatSumReducer.combine values =
        (values.map (fun p => p.1 * (p.2 : ℚ))).sum) ∧
    (∀ (a b : ℚ) (m n : Nat),
      FloatSumReducer.combine [(a, m), (b, n)] = a * m + b * n) := by
  refine ⟨fun k q => rfl, ?_, fun values => rfl, ?_⟩
  · intro k v hv
    cases v <;> first | rfl | (simp [Value.isFloat] at hv)
  · intro a b m n
    simp [FloatSumReducer.combine]

/-- Witness for C5 at the non-float input `Value.int 3`. -/
theorem c5_floatsum_soft_na_witness :
    Value.isFloat (Value.int 3) = false ∧
    FloatSumReducer.init_unary 0 (Value.int 3) = Option.none :=
  ⟨rfl, c5_floatsum_soft_na.2.1 0 (Value.int 3) rfl⟩

/-- Claim C10: `combine` on an empty collection of partial states is not
uniform: ArraySum, Unique, Min, Max, ArgMin, ArgMax and Any panic (an
`unwrap`/`expect` on an empty iterator, modelled as an error or `none`),
while SortedTuple and Tuple return the empty sequence and FloatSum returns
the zero sum. -/
theorem c10_empty_combine :
    ArraySumReducer.combine [] = .error "values should not be empty" ∧
    UniqueReducer.combine [] = .error "called Option unwrap on a None value" ∧
    MinReducer.combine [] = Option.none ∧
    MaxReducer.combine [] = Option.none ∧
    ArgMinReducer.combine [] = Option.none ∧
    ArgMaxReducer.combine [] = Option.none ∧
    AnyReducer.combine [] = Option.none ∧
    SortedTupleReducer.combine [] = [] ∧
    TupleReducer.combine [] = [] ∧
    FloatSumReducer.combine [] = 0 :=
  ⟨rfl, rfl, rfl, rfl, rfl, rfl, rfl, rfl, rfl, rfl⟩

/-! ## Claim about ArgMin / ArgMax -/

theorem argCmp_key_le {m y : Value × Key}
    (h : argCmp m y ≠ .gt) (hv : y.1 = m.1) : m.2 ≤ y.2 := by
  unfold argCmp at h
  rw [hv, Value.cmp_refl] at h
  rcases Ordering.then_ne_gt.1 h with h' | ⟨_, h'⟩
  · exact absurd h' (by simp)
  · exact lcmp_ne_gt.1 h'

theorem argMaxCmp_key_le {m y : Value × Key}
    (h : argMaxCmp y m ≠ .gt) (hv : y.1 = m.1) : m.2 ≤ y.2 := by
  unfold argMaxCmp at h
  rw [hv, Value.cmp_refl] at h
  rcases Ordering.then_ne_gt.1 h with h' | ⟨_, h'⟩
  · exact absurd h' (by simp)
  · exact lcmp_ne_gt.1 h'

/-- Claim C6: for every non-empty input, ArgMin's `combine` returns the
pair with the lexicographically smallest `(Value, Key)`, ArgMax's
`combine` returns the pair maximal for `(Value, reverse-of-Key-order)`;
hence among pairs with equal values both select the smallest key; `finish`
wraps the winning key in a pointer value.  In particular ArgMin over
`{(k1, 5), (k2, 5), (k3, 2)}` returns `k3` and over `{(k1, 2), (k2, 2)}`
returns the smaller of `k1`, `k2`. -/
theorem c6_argmin_argmax :
    (∀ l : List ((Value × Key) × Nat), l ≠ [] →
      ∃ m, ArgMinReducer.combine l = some m ∧
        m ∈ l.map Prod.fst ∧
        (∀ y ∈ l.map Prod.fst, argCmp m y ≠ .gt) ∧
        (∀ y ∈ l.map Prod.fst, y.1 = m.1 → m.2 ≤ y.2)) ∧
    (∀ l : List ((Value × Key) × Nat), l ≠ [] →
      ∃ m, ArgMaxReducer.combine l = some m ∧
        m ∈ l.map Prod.fst ∧
        (∀ y ∈ l.map Prod.fst, argMaxCmp y m ≠ .gt) ∧
        (∀ y ∈ l.map Prod.fst, y.1 = m.1 → m.2 ≤ y.2)) ∧
    (∀ s : Value × Key, ArgMinReducer.finish s = .pointer s.2) ∧
    (∀ s : Value × Key, ArgMaxReducer.finish s = .pointer s.2) ∧
    (∀ k1 k2 k3 : Key,
      ArgMinReducer.combine
        [((.int 5, k1), 1), ((.int 5, k2), 1), ((.int 2, k3), 1)] =
        some (.int 2, k3)) ∧
    (∀ k1 k2 : Key,
      ArgMinReducer.combine [((.int 2, k1), 1), ((.int 2, k2), 1)] =
        some (.int 2, min k1 k2)) := by
  refine ⟨?_, ?_, fun s => rfl, fun s => rfl, ?_, ?_⟩
  · intro l hne
    rcases hl : l.map Prod.fst with _ | ⟨x, xs⟩
    · exact absurd (List.map_eq_nil_iff.1 hl) hne
    refine ⟨foldMin argCmp x xs, ?_, ?_, ?_, ?_⟩
    · simp [ArgMinReducer.combine, hl]
    · rcases foldMin_mem argCmp xs x with h | h
      · simp [h]
      · simp [h]
    · intro y hy
      exact foldMin_le argCmp_swap argCmp_le_trans xs x y
        (by rcases List.mem_cons.1 hy with h | h <;> [exact Or.inl h; exact Or.inr h])
    · intro y hy hvy
      exact argCmp_key_le
        (foldMin_le argCmp_swap argCmp_le_trans xs x y
          (by rcases List.mem_cons.1 hy with h | h <;> [exact Or.inl h; exact Or.inr h]))
        hvy
  · intro l hne
    rcases hl : l.map Prod.fst with _ | ⟨x, xs⟩
    · exact absurd (List.map_eq_nil_iff.1 hl) hne
    refine ⟨foldMax argMaxCmp x xs, ?_, ?_, ?_, ?_⟩
    · simp [ArgMaxReducer.combine, hl]
    · rcases foldMax_mem argMaxCmp xs x with h | h
      · simp [h]
      · simp [h]
    · intro y hy
      exact foldMax_ge argMaxCmp_swap argMaxCmp_le_trans xs x y
        (by rcases List.mem_cons.1 hy with h | h <;> [exact Or.inl h; exact Or.inr h])
    · intro y hy hvy
      exact argMaxCmp_key_le
        (foldMax_ge argMaxCmp_swap argMaxCmp_le_trans xs x y
          (by rcases List.mem_cons.1 hy with h | h <;> [exact Or.inl h; exact Or.inr h]))
        hvy
  · intro k1 k2 k3
    have h25 : Value.cmp (.int 2) (.int 5) = .lt := by
      simp [Value.cmp, lcmp]
    have h55 : Value.cmp (.int 5) (.int 5) = .eq := Value.cmp_refl _
    simp only [ArgMinReducer.combine, List.map, foldMin, List.foldl, argCmp]
    by_cases hk : lcmp k2 k1 = Ordering.lt
    · simp [h55, h25, hk, Ordering.then]
    · simp [h55, h25, hk, Ordering.then]
  · intro k1 k2
    have h22 : Value.cmp (.int 2) (.int 2) = .eq := Value.cmp_refl _
    simp only [ArgMinReducer.combine, List.map, foldMin, List.foldl, argCmp]
    by_cases hk : k2 < k1
    · simp [h22, Ordering.then, lcmp_eq_lt.2 hk, min_eq_right (le_of_lt hk)]
    · have hnl : lcmp k2 k1 ≠ .lt := by rw [ne_eq, lcmp_eq_lt]; exact hk
      simp [h22, Ordering.then, hnl, min_eq_left (le_of_not_lt hk)]

/-- Witness for C6 at singleton groups. -/
theorem c6_argmin_argmax_witness :
    (∃ m, ArgMinReducer.combine [((Value.int 7, (4 : Key)), 1)] = some m ∧
      m ∈ ([((Value.int 7, (4 : Key)), 1)].map Prod.fst) ∧
      (∀ y ∈ ([((Value.int 7, (4 : Key)), 1)].map Prod.fst),
        argCmp m y ≠ .gt) ∧
      (∀ y ∈ ([((Value.int 7, (4 : Key)), 1)].map Prod.fst),
        y.1 = m.1 → m.2 ≤ y.2)) ∧
    (∃ m, ArgMaxReducer.combine [((Value.int 7, (4 : Key)), 1)] = some m ∧
      m ∈ ([((Value.int 7, (4 : Key)), 1)].map Prod.fst) ∧
      (∀ y ∈ ([((Value.int 7, (4 : Key)), 1)].map Prod.fst),
        argMaxCmp y m ≠ .gt) ∧
      (∀ y ∈ ([((Value.int 7, (4 : Key)), 1)].map Prod.fst),
        y.1 = m.1 → m.2 ≤ y.2)) :=
  ⟨c6_argmin_argmax.1 [((Value.int 7, 4), 1)] (by simp),
    c6_argmin_argmax.2.1 [((Value.int 7, 4), 1)] (by simp)⟩

/-! ## Claim about Any -/

/-- Within a list of states with pairwise-distinct keys, the Any
comparator separates elements: comparing equal means being equal. -/
theorem anyCmp_eq_of_mem {l : List (Key × Value)}
    (hp : l.Pairwise (fun a b => a.1 ≠ b.1)) :
    ∀ a, a ∈ l → ∀ b, b ∈ l → anyCmp a b = .eq → a = b := by
  intro a ha b hb he
  by_cases hab : a = b
  · exact hab
  · exfalso
    have h1 : a.1 ≠ b.1 :=
      hp.forall (fun x y hxy => Ne.symm hxy) ha hb hab
    have h2 := (Ordering.then_eq_eq.1 he).1
    exact h1 (Key.salted_with_injective SALT (lcmp_eq_eq.1 h2))

/-- Claim C7: Any's `combine` over a non-empty multiset of `(Key, Value)`
states returns the pair minimizing `(salted-hash(Key), Value)` with the
fixed compile-time salt; consequently the result is invariant under any
permutation of the input pairs and under re-batching (combining two
partial results equals combining the whole group), so the same key set
always yields the same selected row; `finish` returns the value of the
selected pair. -/
theorem c7_any_deterministic :
    (∀ l : List ((Key × Value) × Nat), l ≠ [] →
      ∃ m, AnyReducer.combine l = some m ∧
        m ∈ l.map Prod.fst ∧
        ∀ y ∈ l.map Prod.fst, anyCmp m y ≠ .gt) ∧
    (∀ l l' : List ((Key × Value) × Nat),
      (l.map Prod.fst).Perm (l'.map Prod.fst) →
      (l.map Prod.fst).Pairwise (fun a b => a.1 ≠ b.1) →
      AnyReducer.combine l = AnyReducer.combine l') ∧
    (∀ (l1 l2 : List ((Key × Value) × Nat)) (m1 m2 : Key × Value),
      ((l1 ++ l2).map Prod.fst).Pairwise (fun a b => a.1 ≠ b.1) →
      AnyReducer.combine l1 = some m1 → AnyReducer.combine l2 = some m2 →
      AnyReducer.combine [(m1, 1), (m2, 1)] =
        AnyReducer.combine (l1 ++ l2)) ∧
    (∀ s : Key × Value, AnyReducer.finish s = s.2) := by
  have hmem_disj : ∀ (x : Key × Value) (xs : List (Key × Value)) (y : Key × Value),
      y ∈ x :: xs → (y = x ∨ y ∈ xs) := by
    intro x xs y hy
    rcases List.mem_cons.1 hy with h | h
    · exact Or.inl h
    · exact Or.inr h
  refine ⟨?_, ?_, ?_, fun s => rfl⟩
  · intro l hne
    rcases hl : l.map Prod.fst with _ | ⟨x, xs⟩
    · exact absurd (List.map_eq_nil_iff.1 hl) hne
    refine ⟨foldMin anyCmp x xs, ?_, ?_, ?_⟩
    · simp [AnyReducer.combine, hl]
    · rcases foldMin_mem anyCmp xs x with h | h
      · simp [h]
      · simp [h]
    · intro y hy
      exact foldMin_le anyCmp_swap anyCmp_le_trans xs x y (hmem_disj x xs y hy)
  · intro l l' hperm hp
    rcases hl : l.map Prod.fst with _ | ⟨x, xs⟩
    · rw [hl] at hperm
      have : l'.map Prod.fst = [] := List.Perm.eq_nil hperm.symm
      simp [AnyReducer.combine, hl, this]
    rcases hl' : l'.map Prod.fst with _ | ⟨x', xs'⟩
    · rw [hl, hl'] at hperm
      exact absurd (List.Perm.eq_nil hperm) (by simp)
    rw [hl] at hperm hp
    rw [hl'] at hperm
    have hmem : ∀ y, y ∈ x' :: xs' ↔ y ∈ x :: xs :=
      fun y => hperm.symm.mem_iff
    have heq : foldMin anyCmp x' xs' = foldMin anyCmp x xs := by
      refine foldMin_eq_of_min anyCmp_swap anyCmp_le_trans xs' x' _ ?_ ?_ ?_
      · exact hmem_disj x' xs' _ ((hmem _).2 (by
          rcases foldMin_mem anyCmp xs x with h | h
          · simp [h]
          · simp [h]))
      · intro y hy
        exact foldMin_le anyCmp_swap anyCmp_le_trans xs x y
          (hmem_disj x xs y ((hmem y).1 (by
            rcases hy with rfl | hy
            · simp
            · simp [hy])))
      · intro a ha he
        refine anyCmp_eq_of_mem hp a ((hmem a).1 (by
            rcases ha with rfl | ha
            · simp
            · simp [ha])) _ ?_ he
        rcases foldMin_mem anyCmp xs x with h | h
        · simp [h]
        · simp [h]
    simp [AnyReducer.combine, hl, hl', heq]
  · intro l1 l2 m1 m2 hp hc1 hc2
    rcases hl1 : l1.map Prod.fst with _ | ⟨x1, xs1⟩
    · simp [AnyReducer.combine, hl1] at hc1
    rcases hl2 : l2.map Prod.fst with _ | ⟨x2, xs2⟩
    · simp [AnyReducer.combine, hl2] at hc2
    simp only [AnyReducer.combine, hl1, Option.some.injEq] at hc1
    simp only [AnyReducer.combine, hl2, Option.some.injEq] at hc2
    have happ : (l1 ++ l2).map Prod.fst = x1 :: (xs1 ++ x2 :: xs2) := by
      simp [hl1, hl2]
    rw [happ] at hp
    -- facts about m1 and m2
    have hm1mem : m1 = x1 ∨ m1 ∈ xs1 := by
      rw [← hc1]; exact foldMin_mem anyCmp xs1 x1
    have hm1le : ∀ y, (y = x1 ∨ y ∈ xs1) → anyCmp m1 y ≠ .gt := by
      rw [← hc1]; exact fun y hy => foldMin_le anyCmp_swap anyCmp_le_trans xs1 x1 y hy
    have hm2mem : m2 = x2 ∨ m2 ∈ xs2 := by
      rw [← hc2]; exact foldMin_mem anyCmp xs2 x2
    have hm2le : ∀ y, (y = x2 ∨ y ∈ xs2) → anyCmp m2 y ≠ .gt := by
      rw [← hc2]; exact fun y hy => foldMin_le anyCmp_swap anyCmp_le_trans xs2 x2 y hy
    -- the two-element combine
    have hM : AnyReducer.combine [(m1, 1), (m2, 1)] =
        some (foldMin anyCmp m1 [m2]) := rfl
    have hMmem : foldMin anyCmp m1 [m2] = m1 ∨ foldMin anyCmp m1 [m2] = m2 := by
      rcases foldMin_mem anyCmp [m2] m1 with h | h
      · exact Or.inl h
      · simp at h; exact Or.inr h
    have hMle : ∀ y, (y = m1 ∨ y ∈ [m2]) → anyCmp (foldMin anyCmp m1 [m2]) y ≠ .gt :=
      fun y hy => foldMin_le anyCmp_swap anyCmp_le_trans [m2] m1 y hy
    have hMany : ∀ y, (y = x1 ∨ y ∈ xs1 ++ x2 :: xs2) →
        anyCmp (foldMin anyCmp m1 [m2]) y ≠ .gt := by
      intro y hy
      have hy' : (y = x1 ∨ y ∈ xs1) ∨ (y = x2 ∨ y ∈ xs2) := by
        rcases hy with rfl | hy
        · exact Or.inl (Or.inl rfl)
        · rcases List.mem_append.1 hy with h | h
          · exact Or.inl (Or.inr h)
          · rcases List.mem_cons.1 h with h | h
            · exact Or.inr (Or.inl h)
            · exact Or.inr (Or.inr h)
      rcases hy' with hy1 | hy2
      · exact anyCmp_le_trans _ _ _ (hMle m1 (Or.inl rfl)) (hm1le y hy1)
      · exact anyCmp_le_trans _ _ _ (hMle m2 (by simp)) (hm2le y hy2)
    have hMin : foldMin anyCmp x1 (xs1 ++ x2 :: xs2) = foldMin anyCmp m1 [m2] := by
      refine foldMin_eq_of_min anyCmp_swap anyCmp_le_trans _ _ _ ?_ hMany ?_
      · rcases hMmem with h | h
        · rw [h]
          rcases hm1mem with h1 | h1
          · exact Or.inl h1
          · exact Or.inr (List.mem_append.2 (Or.inl h1))
        · rw [h]
          rcases hm2mem with h2 | h2
          · exact Or.inr (List.mem_append.2 (Or.inr (by simp [h2])))
          · exact Or.inr (List.mem_append.2 (Or.inr (by simp [h2])))
      · intro a ha he
        have haM : ∀ z, (z = x1 ∨ z ∈ xs1 ++ x2 :: xs2) → z ∈ x1 :: (xs1 ++ x2 :: xs2) := by
          intro z hz
          rcases hz with rfl | hz
          · simp
          · simp [hz]
        have hMmem' : foldMin anyCmp m1 [m2] ∈ x1 :: (xs1 ++ x2 :: xs2) := by
          apply haM
          rcases hMmem with h | h
          · rw [h]
            rcases hm1mem with h1 | h1
            · exact Or.inl h1
            · exact Or.inr (List.mem_append.2 (Or.inl h1))
          · rw [h]
            rcases hm2mem with h2 | h2
            · exact Or.inr (List.mem_append.2 (Or.inr (by simp [h2])))
            · exact Or.inr (List.mem_append.2 (Or.inr (by simp [h2])))
        exact anyCmp_eq_of_mem hp a (haM a ha) _ hMmem' he
    have hfull : AnyReducer.combine (l1 ++ l2) =
        some (foldMin anyCmp x1 (xs1 ++ x2 :: xs2)) := by
      simp [AnyReducer.combine, happ]
    rw [hM, hfull, hMin]

/-- Witness for C7: permutation invariance and re-batching at a concrete
two-row group. -/
theorem c7_any_deterministic_witness :
    AnyReducer.combine [(((1 : Key), Value.int 10), 1), (((2 : Key), Value.int 20), 1)] =
      AnyReducer.combine [(((2 : Key), Value.int 20), 1), (((1 : Key), Value.int 10), 1)] ∧
    AnyReducer.combine [(((1 : Key), Value.int 10), 1), (((2 : Key), Value.int 20), 1)] =
      AnyReducer.combine ([(((1 : Key), Value.int 10), 1)] ++ [(((2 : Key), Value.int 20), 1)]) ∧
    (∃ m, AnyReducer.combine [(((1 : Key), Value.int 10), 1)] = some m ∧
      m ∈ ([(((1 : Key), Value.int 10), 1)].map Prod.fst) ∧
      ∀ y ∈ ([(((1 : Key), Value.int 10), 1)].map Prod.fst),
        anyCmp m y ≠ .gt) :=
  ⟨c7_any_deterministic.2.1 _ _ (List.Perm.swap _ _ _) (by simp),
    c7_any_deterministic.2.2.1 [(((1 : Key), Value.int 10), 1)]
      [(((2 : Key), Value.int 20), 1)] ((1 : Key), Value.int 10)
      ((2 : Key), Value.int 20) (by simp) rfl rfl,
    c7_any_deterministic.1 _ (by simp)⟩

/-! ## Claim about SortedTuple / Tuple multiplicity expansion -/

theorem flatMap_replicate_single {α : Type _} (v : α) (n : Nat) :
    (List.replicate n ([v], 1)).flatMap
      (fun p : List α × Nat => p.1.flatMap (fun w => List.replicate p.2 w)) =
      List.replicate n v := by
  induction n with
  | zero => rfl
  | succ n ih => simp [List.replicate_succ, ih]

theorem flatMap_replicate_nil {α : Type _} (n : Nat) :
    (List.replicate n (([] : List α), 1)).flatMap
      (fun p : List α × Nat => p.1.flatMap (fun w => List.replicate p.2 w)) =
      [] := by
  induction n with
  | zero => rfl
  | succ n ih => simp [List.replicate_succ, ih]

/-- A one-row partial state (at most one element) with multiplicity `n`
expands exactly like `n` copies of the state with multiplicity 1. -/
theorem combineExpand {α : Type _} (s : List α) (n : Nat)
    (h : s = [] ∨ ∃ w, s = [w]) :
    [(s, n)].flatMap
      (fun p : List α × Nat => p.1.flatMap (fun w => List.replicate p.2 w)) =
    (List.replicate n (s, 1)).flatMap
      (fun p : List α × Nat => p.1.flatMap (fun w => List.replicate p.2 w)) := by
  rcases h with rfl | ⟨w, rfl⟩
  · simp [flatMap_replicate_nil]
  · simp [flatMap_replicate_single]

/-- Claim C8: for SortedTuple and Tuple, `combine` concatenates the
partial sequences with each element repeated exactly `multiplicity`
times, so one row with multiplicity `n ≥ 1` produces the same combined
state — and hence the same finished output — as `n` identical rows of
multiplicity 1. -/
theorem c8_multiplicity_expansion :
    (∀ (skip : Bool) (k : Key) (v : Value) (n : Nat), 1 ≤ n →
      ∀ s, SortedTupleReducer.init_unary skip k v = some s →
        SortedTupleReducer.combine [(s, n)] =
          SortedTupleReducer.combine (List.replicate n (s, 1)) ∧
        SortedTupleReducer.finish (SortedTupleReducer.combine [(s, n)]) =
          SortedTupleReducer.finish
            (SortedTupleReducer.combine (List.replicate n (s, 1)))) ∧
    (∀ (skip : Bool) (k : Key) (v0 : Value) (rest : List Value) (n : Nat),
      1 ≤ n →
      ∀ s, TupleReducer.init skip k (v0 :: rest) = some s →
        TupleReducer.combine [(s, n)] =
          TupleReducer.combine (List.replicate n (s, 1)) ∧
        TupleReducer.finish (TupleReducer.combine [(s, n)]) =
          TupleReducer.finish
            (TupleReducer.combine (List.replicate n (s, 1)))) := by
  constructor
  · intro skip k v n _ s hs
    have hshape : s = [] ∨ ∃ w, s = [w] := by
      cases v <;> cases skip <;>
        (simp only [SortedTupleReducer.init_unary, Option.some.injEq] at hs
         subst hs
         first
         | (left; rfl)
         | (right; exact ⟨_, rfl⟩))
    have hc : SortedTupleReducer.combine [(s, n)] =
        SortedTupleReducer.combine (List.replicate n (s, 1)) :=
      combineExpand s n hshape
    exact ⟨hc, congrArg _ hc⟩
  · intro skip k v0 rest n _ s hs
    have hshape : s = [] ∨ ∃ w, s = [w] := by
      cases v0 <;> cases skip <;> cases rest <;>
        (simp only [TupleReducer.init, Option.some.injEq] at hs
         subst hs
         first
         | (left; rfl)
         | (right; exact ⟨_, rfl⟩))
    have hc : TupleReducer.combine [(s, n)] =
        TupleReducer.combine (List.replicate n (s, 1)) :=
      combineExpand s n hshape
    exact ⟨hc, congrArg _ hc⟩

/-- Witness for C8: one row `3` with multiplicity 2 versus two unit
rows. -/
theorem c8_multiplicity_expansion_witness :
    (SortedTupleReducer.combine [([Value.int 3], 2)] =
      SortedTupleReducer.combine (List.replicate 2 ([Value.int 3], 1)) ∧
     SortedTupleReducer.finish (SortedTupleReducer.combine [([Value.int 3], 2)]) =
      SortedTupleReducer.finish
        (SortedTupleReducer.combine (List.replicate 2 ([Value.int 3], 1)))) ∧
    (TupleReducer.combine [([(Option.none, (0 : Key), Value.int 3)], 2)] =
      TupleReducer.combine
        (List.replicate 2 ([(Option.none, (0 : Key), Value.int 3)], 1)) ∧
     TupleReducer.finish
        (TupleReducer.combine [([(Option.none, (0 : Key), Value.int 3)], 2)]) =
      TupleReducer.finish
        (TupleReducer.combine
          (List.replicate 2 ([(Option.none, (0 : Key), Value.int 3)], 1)))) :=
  ⟨c8_multiplicity_expansion.1 false 0 (Value.int 3) 2 (by decide)
      [Value.int 3] rfl,
    c8_multiplicity_expansion.2 false 0 (Value.int 3) [] 2 (by decide)
      [(Option.none, 0, Value.int 3)] rfl⟩

/-! Reduction lemmas for the `Except` monad used by `ArraySumReducer.combine`. -/

theorem except_ok_bind {ε α β : Type _} (a : α) (f : α → Except ε β) :
    (Except.ok a >>= f) = f a := rfl

theorem except_error_bind {ε α β : Type _} (e : ε) (f : α → Except ε β) :
    ((Except.error e : Except ε α) >>= f) = Except.error e := rfl

/-! ## Claim about ArraySum -/

/-- Claim C9: ArraySum's `combine` folds the partial arrays with
element-wise addition after scaling each by its multiplicity: integer
arrays `[1,2]` (multiplicity 1) and `[3,4]` (multiplicity 2) yield
`[7, 10]`; combining an integer array with a float array in one group is
a fatal error, as is any non-array value reaching the fold. -/
theorem c9_arraysum :
    ArraySumReducer.combine
      [(.intArray [1, 2], 1), (.intArray [3, 4], 2)] =
      .ok (.intArray [7, 10]) ∧
    (∀ (a : List Int) (b : List ℚ) (m n : Nat), m < 2 ^ 63 →
      ArraySumReducer.combine [(.intArray a, m), (.floatArray b, n)] =
        .error "mixing types in npsum is not allowed") ∧
    (∀ (v : Value) (n : Nat) (rest : List (Value × Nat)), v.isArray = false →
      ArraySumReducer.combine ((v, n) :: rest) =
        .error "unsupported type for npsum") ∧
    (∀ (a b : List Int) (n : Nat), a.length = b.length →
      2 ≤ n → n < 2 ^ 63 →
      ArraySumReducer.combine [(.intArray a, 1), (.intArray b, n)] =
        .ok (.intArray
          (List.zipWith (fun x y => wrap64 (x + wrap64 (y * (n : Int)))) a b))) := by
  refine ⟨?_, ?_, ?_, ?_⟩
  · rfl
  · intro a b m n hm
    have hm' : m < 9223372036854775808 := by omega
    by_cases hm1 : m = 1 <;> by_cases hn1 : n = 1 <;>
      simp [ArraySumReducer.combine, ArraySumState.new, ArraySumState.add,
        hm1, hn1, hm', except_ok_bind, except_error_bind]
  · intro v n rest hv
    cases v <;>
      first
      | (simp [ArraySumReducer.combine, ArraySumState.new, except_ok_bind,
           except_error_bind]
         done)
      | (simp [Value.isArray] at hv)
  · intro a b n hlen h2 hlt
    have hn1 : n ≠ 1 := by omega
    have hlt' : n < 9223372036854775808 := by omega
    simp [ArraySumReducer.combine, ArraySumState.new, ArraySumState.add,
      ArraySumState.toValue, hn1, hlt', hlen, except_ok_bind,
      except_error_bind, List.zipWith_map_right]

/-- Witness for C9 at concrete arrays. -/
theorem c9_arraysum_witness :
    ((1 : Nat) < 2 ^ 63) ∧
    ArraySumReducer.combine
      [(.intArray [1, 2], 1), (.floatArray [3, 4], 1)] =
      .error "mixing types in npsum is not allowed" ∧
    ArraySumReducer.combine [(.int 5, 1)] =
      .error "unsupported type for npsum" ∧
    ArraySumReducer.combine [(.intArray [1, 2], 1), (.intArray [3, 4], 2)] =
      .ok (.intArray
        (List.zipWith (fun x y => wrap64 (x + wrap64 (y * (2 : Int)))) [1, 2] [3, 4])) :=
  ⟨by decide,
    c9_arraysum.2.1 [1, 2] [3, 4] 1 1 (by decide),
    c9_arraysum.2.2.1 (.int 5) 1 [] rfl,
    c9_arraysum.2.2.2 [1, 2] [3, 4] 2 rfl (by decide) (by decide)⟩
